import Mathlib

/-!
Verification development for the mdbook-backlinks preprocessor
(`src/main.rs`).  The program walks an mdbook `Book`, builds a reverse
index from each chapter's normalized source path to the list of chapters
linking to it, and appends a rendered "Backlinks" markdown fragment to
every chapter with at least one backlink.

The Rust source is shallowly embedded below.  Paths are modelled as lists
of `/`-separated segments; chapter text is a `String`; fallible steps
return `Except NormError`.  External crates used by the source
(`path_normalizer`, the pulldown-cmark parser, the cmark serializer, and
`pathdiff`) are not part of the repository; their behavior is modelled
from the specification (and, for the serializer, the exact output format
pinned by the repository's own test), and each such definition says so in
its doc comment.
-/

/-- A path, as the list of its `/`-separated segments.  Mirrors Rust
`PathBuf` for the relative, forward-slash paths this program handles. -/
abbrev PathSegs := List String

/-- The single error kind of the transform: a path normalizes to a
location above the document root (`NormalizeError` in the source). -/
inductive NormError : Type where
  | escapesRoot
deriving DecidableEq, Repr

/-- Modelled from the spec: the external `path_normalizer` crate's lexical
normalization (spec §4.1).  Consumes segments left to right with an
accumulator of kept segments (in reverse): `.` and empty segments are
dropped (Rust `Path` components skip empty segments), `..` pops the
previous real segment and signals an escape-above-root error when there is
none, and any other segment is kept in order. -/
def normSegs : List String → List String → Except NormError (List String)
  | acc, [] => .ok acc.reverse
  | acc, s :: rest =>
    if s = "" ∨ s = "." then normSegs acc rest
    else if s = ".." then
      match acc with
      | [] => .error .escapesRoot
      | _ :: acc' => normSegs acc' rest
    else normSegs (s :: acc) rest

/-- `PathNormalizeExt::normalize_path` (source lines 88-100): a relative
path is first anchored with a leading `.` (the source joins
`PathBuf::from(".")` in front), then normalized lexically. -/
def normalizePath (p : PathSegs) : Except NormError PathSegs :=
  normSegs [] ( "." :: p)

/-- `Path::parent` for the segment model: drop the final segment.  Used to
resolve a link destination against the linking chapter's directory. -/
def parentDir (p : PathSegs) : PathSegs := p.dropLast

/-- Split a string on `/` (accumulator holds the current segment's
characters in reverse).  Mirrors `PathBuf::from(&str)` turning a
forward-slash string into its components. -/
def splitSegsGo : List Char → List Char → List String
  | acc, [] => [ String.mk acc.reverse ]
  | acc, c :: rest =>
    if c = '/' then String.mk acc.reverse :: splitSegsGo [] rest
    else splitSegsGo (c :: acc) rest

/-- `PathBuf::from` on a link-destination string. -/
def pathFromString (s : String) : PathSegs := splitSegsGo [] s.toList

/-- Serialize a path back to a forward-slash string
(`Path::to_str` on the paths this program builds). -/
def pathToString : PathSegs → String
  | [] => ""
  | [ s ] => s
  | s :: rest => s ++ "/" ++ pathToString rest

/-- Modelled from the spec: the external `pathdiff::diff_paths` crate
function, restricted to the normalized relative paths this program feeds
it — the relative path from directory `base` to `path`: the common prefix
is dropped, each remaining `base` segment becomes `..`, and the remaining
`path` segments follow.  (On these inputs the crate never returns `None`,
which is why the source unwraps.) -/
def diffPaths : PathSegs → PathSegs → PathSegs
  | p, [] => p
  | [], _ :: b => ".." :: diffPaths [] b
  | x :: p, y :: b =>
    if x = y then diffPaths p b
    else (y :: b).map (fun _ => "..") ++ x :: p

/-- Modelled from the spec: the Link Extractor (spec §4.2).  The external
pulldown-cmark parser is not part of this repository; this models the
sequence of link destinations yielded by `Event::Start(Tag::Link)` events
for content built of plain inline links, scanning for `](dest)`
occurrences.  The first argument is `none` outside a destination and
`some acc` (characters in reverse) inside one. -/
def extractLinksGo : Option (List Char) → List Char → List String
  | none, ']' :: '(' :: rest => extractLinksGo (some []) rest
  | none, _ :: rest => extractLinksGo none rest
  | none, [] => []
  | some acc, ')' :: rest => String.mk acc.reverse :: extractLinksGo none rest
  | some acc, c :: rest => extractLinksGo (some (c :: acc)) rest
  | some _, [] => []

/-- Destinations of the links occurring in a chapter's markdown content,
in textual order. -/
def extractLinks (s : String) : List String := extractLinksGo none s.toList

/-- The fields of an mdbook `Chapter` that the program reads or writes:
display name, markdown content, optional hierarchical section number, and
optional source path. -/
structure ChInfo : Type where
  name : String
  content : String
  number : Option (List Nat)
  source_path : Option PathSegs
deriving DecidableEq, Repr

/-- An item of the book tree: a chapter with its nested sub-items, or a
non-chapter item (separator / part title), which the program ignores. -/
inductive BookItem : Type where
  | chapter (info : ChInfo) (sub_items : List BookItem)
  | other

/-- A `Book` is the (ordered) forest of its top-level items. -/
abbrev Book := List BookItem

mutual

/-- Chapters of one item in depth-first order (`Book::iter`). -/
def itemChapters : BookItem → List ChInfo
  | .chapter info subs => info :: listChapters subs
  | .other => []

/-- Chapters of an item forest in depth-first order (`Book::iter`). -/
def listChapters : List BookItem → List ChInfo
  | [] => []
  | i :: is => itemChapters i ++ listChapters is

end

mutual

/-- `Book::for_each_mut` on one item: apply `f` to every chapter's fields,
recursing into sub-items.  The closure used by the program reads and
writes only the chapter's own fields. -/
def forEachItem (f : ChInfo → ChInfo) : BookItem → BookItem
  | .chapter info subs => .chapter (f info) (forEachList f subs)
  | .other => .other

/-- `Book::for_each_mut` on an item forest. -/
def forEachList (f : ChInfo → ChInfo) : List BookItem → List BookItem
  | [] => []
  | i :: is => forEachItem f i :: forEachList f is

end

/-- A backlink record pushed into the index (source line 131-135):
`(chapter number, chapter name, chapter's normalized source path)`. -/
abbrev Record := Option (List Nat) × String × PathSegs

/-- The backlink index: map from a target chapter's normalized source
path to the records of chapters linking to it.  The source uses a
`HashMap`; an association list models it (key order is irrelevant: every
observation goes through `alGet`). -/
abbrev Index := List (PathSegs × List Record)

/-- `HashMap::get` on the association-list model. -/
def alGet (k : PathSegs) : Index → Option (List Record)
  | [] => none
  | (k', v) :: m => if k' = k then some v else alGet k m

/-- `HashMap::insert` on the association-list model (replaces the value
if the key is present). -/
def alInsert (k : PathSegs) (v : List Record) : Index → Index
  | [] => [ (k, v) ]
  | (k', v') :: m => if k' = k then (k, v) :: m else (k', v') :: alInsert k v m

/-- `backlinks.push(record)` through `HashMap::get_mut`: append a record
at the end of the list held at key `k` (no change if `k` is absent). -/
def alAppend (k : PathSegs) (r : Record) : Index → Index
  | [] => []
  | (k', v) :: m => if k' = k then (k', v ++ [ r ]) :: m else (k', v) :: alAppend k r m

/-- The keys of the index. -/
def alKeys (m : Index) : List PathSegs := m.map (fun e => e.1)

/-- Three-way comparison on `Nat`, as Rust `usize::cmp`. -/
def cmpNat (a b : Nat) : Ordering :=
  if a < b then .lt else if b < a then .gt else .eq

/-- Three-way comparison on `Char` by code point.  Rust compares strings
byte-wise over UTF-8, which coincides with code-point order. -/
def cmpChar (a b : Char) : Ordering := cmpNat a.toNat b.toNat

/-- Lexicographic comparison of lists from an element comparison, as the
derived `Ord` of Rust `Vec`: a strict prefix sorts before its
extensions. -/
def cmpList (c : α → α → Ordering) : List α → List α → Ordering
  | [], [] => .eq
  | [], _ :: _ => .lt
  | _ :: _, [] => .gt
  | a :: as, b :: bs => (c a b).then (cmpList c as bs)

/-- Comparison on `Option` as Rust's derived `Ord` for `Option`:
`None` sorts before every `Some`. -/
def cmpOpt (c : α → α → Ordering) : Option α → Option α → Ordering
  | none, none => .eq
  | none, some _ => .lt
  | some _, none => .gt
  | some a, some b => c a b

/-- Lexicographic comparison on pairs, as Rust's derived `Ord` for
tuples. -/
def cmpProd (ca : α → α → Ordering) (cb : β → β → Ordering) (x y : α × β) : Ordering :=
  (ca x.1 y.1).then (cb x.2 y.2)

/-- String comparison, as Rust `String::cmp` (byte-lexicographic over
UTF-8, which equals code-point-lexicographic order). -/
def cmpStr (a b : String) : Ordering := cmpList cmpChar a.toList b.toList

/-- The order `itertools::sorted` uses on backlink records: the derived
`Ord` of the tuple `(Option<Vec<usize>>, String, NormalizedPathBuf)` —
number first (`None`, i.e. unnumbered, before every `Some`; numeric
sequences lexicographic with strict prefixes first), then name, then
normalized source path (component-wise). -/
def cmpRecord : Record → Record → Ordering :=
  cmpProd (cmpOpt (cmpList cmpNat)) (cmpProd cmpStr (cmpList cmpStr))

/-- Non-strict comparison used to sort records ascending. -/
def recLe (a b : Record) : Bool :=
  match cmpRecord a b with
  | .gt => false
  | _ => true

/-- Insert a record into an already sorted list, before the first
element it is `recLe`-below. -/
def insertRec (a : Record) : List Record → List Record
  | [] => [ a ]
  | b :: l => if recLe a b then a :: b :: l else b :: insertRec a l

/-- `itertools::sorted` on the record list: a stable ascending sort.
Insertion sort is stable, and since `cmpRecord` is a total order whose
`eq` coincides with equality, every stable sort produces this exact
list. -/
def sortRecs : List Record → List Record
  | [] => []
  | a :: l => insertRec a (sortRecs l)

/-- Helper for `dedupConsec`: `a` is the last element kept; drop every
following element equal to it, then keep the next distinct one. -/
def dedupFrom (a : Record) : List Record → List Record
  | [] => []
  | b :: rest => if a = b then dedupFrom a rest else b :: dedupFrom b rest

/-- `itertools::dedup`: drop consecutive repeated elements, keeping the
first of each run.  Elements compare by full `Record` equality. -/
def dedupConsec : List Record → List Record
  | [] => []
  | a :: rest => a :: dedupFrom a rest

/-- `backlinks.iter().sorted().dedup()` (source line 158): the ordered,
deduplicated record list a chapter's Backlinks block renders. -/
def sortedBacklinks (rs : List Record) : List Record := dedupConsec (sortRecs rs)

/-- The pulldown-cmark events the fragment builder emits (only the
variants this program uses). -/
inductive MdEvent : Type where
  | rule
  | startBQ
  | endBQ
  | startH4
  | endH4
  | startList
  | endList
  | startItem
  | endItem
  | startLink (dest : String)
  | endLink
  | text (s : String)
deriving DecidableEq, Repr

/-- `MarkdownBuilder` (source lines 16-65): an event list built up in
order. -/
structure MarkdownBuilder : Type where
  events : List MdEvent

/-- `MarkdownBuilder::event`: push one event. -/
def MarkdownBuilder.event (b : MarkdownBuilder) (e : MdEvent) : MarkdownBuilder :=
  MarkdownBuilder.mk (b.events ++ [ e ])

/-- `MarkdownBuilder::text`: emit a piece of text. -/
def MarkdownBuilder.text (b : MarkdownBuilder) (s : String) : MarkdownBuilder :=
  b.event (.text s)

/-- `MarkdownBuilder::tag`: start a tag before the closure and end it
afterwards. -/
def MarkdownBuilder.tag (b : MarkdownBuilder) (s e : MdEvent)
    (f : MarkdownBuilder → MarkdownBuilder) : MarkdownBuilder :=
  (f (b.event s)).event e

/-- `MarkdownBuilder::simple_heading` at the only level the program uses
(`H4`). -/
def MarkdownBuilder.simpleHeading (b : MarkdownBuilder)
    (f : MarkdownBuilder → MarkdownBuilder) : MarkdownBuilder :=
  b.tag .startH4 .endH4 f

/-- `MarkdownBuilder::simple_link`: an inline link with the given
destination around the closure's content. -/
def MarkdownBuilder.simpleLink (b : MarkdownBuilder) (dest : String)
    (f : MarkdownBuilder → MarkdownBuilder) : MarkdownBuilder :=
  b.tag (.startLink dest) .endLink f

/-- The loop body of the splice pass's list construction (source lines
158-166): one list item holding a single inline link whose text is the
record's chapter name and whose destination is the relative path from
`dir` (the target chapter's directory) to the record's path. -/
def itemFold (dir : PathSegs) (b : MarkdownBuilder) (r : Record) : MarkdownBuilder :=
  b.tag .startItem .endItem (fun b =>
    b.simpleLink (pathToString (diffPaths r.2.2 dir)) (fun b =>
      b.text r.2.1))

/-- The event sequence the splice pass builds for one chapter (source
lines 151-169): a rule, then a block quote holding an `H4` "Backlinks"
heading and a list with one item per record. -/
def buildFragmentEvents (records : List Record) (dir : PathSegs) : List MdEvent :=
  ((MarkdownBuilder.mk []).event .rule |>.tag .startBQ .endBQ (fun b =>
    (b.simpleHeading (fun b => b.text "Backlinks")).tag .startList .endList (fun b =>
      records.foldl (itemFold dir) b))).events

/-- Modelled from the spec: serialization of the builder's event stream
by the external `pulldown_cmark_to_cmark` crate, restricted to the event
shapes this program emits.  The per-event output follows the exact
fragment syntax of spec §6, which the repository's own test pins
character for character.  The first argument is the stack of pending
link destinations (the serializer closes a link as `](dest)`). -/
def renderEvents : List String → List MdEvent → String
  | _, [] => ""
  | stk, e :: rest =>
    match e with
    | .rule => "---" ++ renderEvents stk rest
    | .startBQ => "\n\n > " ++ renderEvents stk rest
    | .endBQ => renderEvents stk rest
    | .startH4 => "\n > #### " ++ renderEvents stk rest
    | .endH4 => renderEvents stk rest
    | .startList => "\n > " ++ renderEvents stk rest
    | .endList => renderEvents stk rest
    | .startItem => "\n > * " ++ renderEvents stk rest
    | .endItem => renderEvents stk rest
    | .startLink d => "[" ++ renderEvents (d :: stk) rest
    | .endLink =>
      match stk with
      | d :: stk' => "](" ++ d ++ ")" ++ renderEvents stk' rest
      | [] => renderEvents [] rest
    | .text s => s ++ renderEvents stk rest

/-- Fold a fallible step over a list, stopping at the first error — the
`?`-propagation of the source's loops. -/
def foldE (f : Index → α → Except NormError Index) : Index → List α → Except NormError Index
  | idx, [] => .ok idx
  | idx, a :: l =>
    match f idx a with
    | .ok idx' => foldE f idx' l
    | .error e => .error e

/-- Seed pass, one chapter (source lines 108-114): insert an empty record
list under the chapter's normalized source path; chapters without a
source path are skipped. -/
def seedChapter (idx : Index) (c : ChInfo) : Except NormError Index :=
  match c.source_path with
  | none => .ok idx
  | some sp =>
    match normalizePath sp with
    | .error e => .error e
    | .ok p => .ok (alInsert p [] idx)

/-- Seed pass over all chapters: every known chapter path gets a key
before any link is processed. -/
def seedIndex (cs : List ChInfo) : Except NormError Index :=
  foldE seedChapter [] cs

/-- Populate pass, one link (source lines 124-137): resolve the
destination against the linking chapter's directory, normalize, and
append a record if (and only if) the resolved path is a key of the
index. -/
def processLink (p : PathSegs) (r : Record) (idx : Index) (dest : String) :
    Except NormError Index :=
  match normalizePath (parentDir p ++ pathFromString dest) with
  | .error e => .error e
  | .ok d =>
    match alGet d idx with
    | some _ => .ok (alAppend d r idx)
    | none => .ok idx

/-- Populate pass, one chapter (source lines 117-140): normalize the
chapter's source path and process every link destination extracted from
its content. -/
def populateChapter (idx : Index) (c : ChInfo) : Except NormError Index :=
  match c.source_path with
  | none => .ok idx
  | some sp =>
    match normalizePath sp with
    | .error e => .error e
    | .ok p => foldE (processLink p (c.number, c.name, p)) idx (extractLinks c.content)

/-- The full backlink index of a book: seed pass, then populate pass. -/
def buildIndex (b : Book) : Except NormError Index :=
  match seedIndex (listChapters b) with
  | .error e => .error e
  | .ok idx0 => foldE populateChapter idx0 (listChapters b)

/-- Splice pass, one chapter (source lines 143-172): when the chapter has
a source path whose index entry is non-empty, append `"\n\n"` (so the
rule is not parsed as a heading underline) followed by the rendered
fragment for the sorted, deduplicated records.  The source unwraps the
re-normalization of the source path; that cannot fail once the index was
built (the seed pass normalized every source path), and the model returns
the chapter unchanged on that unreachable branch. -/
def spliceChapter (idx : Index) (c : ChInfo) : ChInfo :=
  match c.source_path with
  | none => c
  | some sp =>
    match normalizePath sp with
    | .error _ => c
    | .ok p =>
      match alGet p idx with
      | none => c
      | some backlinks =>
        if backlinks.length ≥ 1 then
          ChInfo.mk c.name
            (c.content ++ "\n\n" ++
              renderEvents [] (buildFragmentEvents (sortedBacklinks backlinks) (parentDir p)))
            c.number c.source_path
        else c

/-- `process_book` (source lines 102-175): build the index, then splice
every chapter.  On any normalization error the whole transform aborts
with that error and no book is produced. -/
def process_book (b : Book) : Except NormError Book :=
  match buildIndex b with
  | .error e => .error e
  | .ok idx => .ok (forEachList (spliceChapter idx) b)

/-- Concatenation of a list of strings. -/
def strConcat : List String → String
  | [] => ""
  | s :: l => s ++ strConcat l

/-- The fixed leading part of every rendered Backlinks fragment: the
thematic break, the opening of the block quote, the level-4 "Backlinks"
heading, and the opening of the list. -/
def backlinksHeader : String := "---\n\n > \n > #### Backlinks\n > "

/-- The rendered list item of one backlink record, given the target
chapter's directory: a single inline link whose visible text is the
record's chapter name and whose destination is the relative path from
that directory to the record's source path. -/
def backlinkItemStr (dir : PathSegs) (r : Record) : String :=
  "\n > * [" ++ r.2.1 ++ "](" ++ pathToString (diffPaths r.2.2 dir) ++ ")"

/-- A step function on the index that can only extend record lists:
whenever it succeeds, every existing key still holds its old records,
possibly with more appended. -/
def GrowStep (f : Index → α → Except NormError Index) : Prop :=
  ∀ idx a idx', f idx a = .ok idx' →
    ∀ k v, alGet k idx = some v → ∃ w, alGet k idx' = some (v ++ w)

/-- The book of the repository's own test (`src/main.rs`, `#[test] fn
test`): five chapters, four of which link to `b/last_chapter.md`. -/
def testBook : Book := [
  .chapter (ChInfo.mk "index" "[link](b/last_chapter.md)" (some [0]) (some [ "index.md" ])) [],
  .chapter (ChInfo.mk "ch1" "[link](../b/last_chapter.md)" (some [1, 1]) (some [ "a", "ch1.md" ])) [],
  .chapter (ChInfo.mk "ch2" "[link](last_chapter.md)" (some [2, 2]) (some [ "b", "ch2.md" ])) [],
  .chapter (ChInfo.mk "ch3" "[link](last_chapter.md)" (some [2, 1]) (some [ "b", "ch3.md" ])) [],
  .chapter (ChInfo.mk "last_chapter" "" (some [2, 3]) (some [ "b", "last_chapter.md" ])) [] ]

/-- The index built for `testBook` (evaluates the program; the seed keys
with only `b/last_chapter.md` populated). -/
def testIdx : Index :=
  match buildIndex testBook with
  | .ok idx => idx
  | .error _ => []

/-- The output book of `process_book` on `testBook`. -/
def testOut : Book :=
  match process_book testBook with
  | .ok b => b
  | .error _ => []

/-- Two chapters sharing the same name and source path but with different
section numbers, both linking to a third chapter `t.md`. -/
def bookC4 : Book := [
  .chapter (ChInfo.mk "A" "[t](t.md)" (some [1]) (some [ "x.md" ])) [],
  .chapter (ChInfo.mk "A" "[t](t.md)" (some [2]) (some [ "x.md" ])) [],
  .chapter (ChInfo.mk "t" "" none (some [ "t.md" ])) [] ]

/-- A book whose single root chapter links above the document root. -/
def bookEsc : Book :=
  [ .chapter (ChInfo.mk "a" "[x](../x.md)" none (some [ "a.md" ])) [] ]

/-- A two-chapter book with no internal links (and one chapter without a
source path). -/
def bookNoLinks : Book := [
  .chapter (ChInfo.mk "a" "hello" none (some [ "a.md" ])) [],
  .chapter (ChInfo.mk "draft" "world" none none) [] ]

/-- A book whose single chapter links to its own path. -/
def bookSelf : Book :=
  [ .chapter (ChInfo.mk "s" "[me](s.md)" none (some [ "s.md" ])) [] ]

/-- The index built for `bookSelf`. -/
def selfIdx : Index :=
  match buildIndex bookSelf with
  | .ok idx => idx
  | .error _ => []

/-- A lawful three-way comparator: `eq` coincides with equality, swapping
the arguments swaps the result, and strict `lt` is transitive.  Rust's
derived `Ord` instances used by the record sort all satisfy this. -/
structure LawCmp (cmp : α → α → Ordering) : Prop where
  eq_iff : ∀ a b, cmp a b = .eq ↔ a = b
  symm : ∀ a b, (cmp a b).swap = cmp b a
  lt_trans : ∀ a b c, cmp a b = .lt → cmp b c = .lt → cmp a c = .lt

theorem ordThen_eq_iff (x y : Ordering) : x.then y = .eq ↔ x = .eq ∧ y = .eq := by
  cases x <;> simp [Ordering.then]

theorem ordThen_lt_iff (x y : Ordering) : x.then y = .lt ↔ x = .lt ∨ (x = .eq ∧ y = .lt) := by
  cases x <;> simp [Ordering.then]

theorem ordSwap_then (x y : Ordering) : (x.then y).swap = x.swap.then y.swap := by
  cases x <;> simp [Ordering.then, Ordering.swap]

theorem cmpNat_eq_iff (a b : Nat) : cmpNat a b = .eq ↔ a = b := by
  unfold cmpNat
  by_cases h1 : a < b
  · simp [h1]; omega
  · by_cases h2 : b < a
    · simp [h1, h2]; omega
    · simp [h1, h2]; omega

theorem cmpNat_symm (a b : Nat) : (cmpNat a b).swap = cmpNat b a := by
  unfold cmpNat
  by_cases h1 : a < b
  · simp [h1, show ¬ b < a by omega, Ordering.swap]
  · by_cases h2 : b < a
    · simp [h1, h2, Ordering.swap]
    · simp [h1, h2, Ordering.swap]

theorem cmpNat_lt_iff (a b : Nat) : cmpNat a b = .lt ↔ a < b := by
  unfold cmpNat
  by_cases h1 : a < b
  · simp [h1]
  · by_cases h2 : b < a <;> simp [h1, h2]

theorem lawCmpNat : LawCmp cmpNat := by
  refine ⟨cmpNat_eq_iff, cmpNat_symm, ?_⟩
  intro a b c h1 h2
  rw [cmpNat_lt_iff] at *
  omega

theorem lawCmp_comap {c : β → β → Ordering} (hc : LawCmp c) (f : α → β)
    (hf : Function.Injective f) : LawCmp (fun a b => c (f a) (f b)) := by
  refine ⟨?_, ?_, ?_⟩
  · intro a b
    rw [hc.eq_iff]
    exact ⟨fun h => hf h, fun h => by rw [h]⟩
  · intro a b; exact hc.symm _ _
  · intro a b x h1 h2; exact hc.lt_trans _ _ _ h1 h2

theorem lawCmpChar : LawCmp cmpChar := by
  have : Function.Injective Char.toNat := by
    intro a b h
    exact Char.ext (UInt32.ext h)
  exact lawCmp_comap lawCmpNat Char.toNat this

theorem lawCmp_prod {ca : α → α → Ordering} {cb : β → β → Ordering}
    (ha : LawCmp ca) (hb : LawCmp cb) : LawCmp (cmpProd ca cb) := by
  refine ⟨?_, ?_, ?_⟩
  · intro x y
    unfold cmpProd
    rw [ordThen_eq_iff, ha.eq_iff, hb.eq_iff, Prod.ext_iff]
  · intro x y
    unfold cmpProd
    rw [ordSwap_then, ha.symm, hb.symm]
  · intro x y z h1 h2
    unfold cmpProd at *
    rw [ordThen_lt_iff] at *
    rcases h1 with h1 | ⟨h1e, h1b⟩
    · rcases h2 with h2 | ⟨h2e, h2b⟩
      · exact Or.inl (ha.lt_trans _ _ _ h1 h2)
      · rw [ha.eq_iff] at h2e
        exact Or.inl (h2e ▸ h1)
    · rw [ha.eq_iff] at h1e
      rcases h2 with h2 | ⟨h2e, h2b⟩
      · exact Or.inl (h1e ▸ h2)
      · rw [ha.eq_iff] at h2e
        exact Or.inr ⟨by rw [ha.eq_iff]; rw [h1e, h2e], hb.lt_trans _ _ _ h1b h2b⟩

theorem lawCmp_opt {c : α → α → Ordering} (hc : LawCmp c) : LawCmp (cmpOpt c) := by
  refine ⟨?_, ?_, ?_⟩
  · intro a b
    cases a <;> cases b <;> simp [cmpOpt, hc.eq_iff]
  · intro a b
    cases a <;> cases b <;> simp only [cmpOpt] <;>
      first
      | rfl
      | exact hc.symm _ _
  · intro a b x h1 h2
    cases a <;> cases b <;> cases x <;> simp_all [cmpOpt]
    exact hc.lt_trans _ _ _ h1 h2

theorem lawCmp_list {c : α → α → Ordering} (hc : LawCmp c) : LawCmp (cmpList c) := by
  refine ⟨?_, ?_, ?_⟩
  · intro a
    induction a with
    | nil => intro b; cases b <;> simp [cmpList]
    | cons x xs ih =>
      intro b
      cases b with
      | nil => simp [cmpList]
      | cons y ys => simp [cmpList, ordThen_eq_iff, hc.eq_iff, ih ys]
  · intro a
    induction a with
    | nil => intro b; cases b <;> simp [cmpList, Ordering.swap]
    | cons x xs ih =>
      intro b
      cases b with
      | nil => simp [cmpList, Ordering.swap]
      | cons y ys => simp [cmpList, ordSwap_then, hc.symm, ih ys]
  · intro a
    induction a with
    | nil =>
      intro b x h1 h2
      cases b with
      | nil => simp [cmpList] at h1
      | cons y ys =>
        cases x with
        | nil => simp [cmpList] at h2
        | cons z zs => simp [cmpList]
    | cons w ws ih =>
      intro b x h1 h2
      cases b with
      | nil => simp [cmpList] at h1
      | cons y ys =>
        cases x with
        | nil => simp [cmpList] at h2
        | cons z zs =>
          simp only [cmpList, ordThen_lt_iff] at *
          rcases h1 with h1 | ⟨h1e, h1r⟩
          · rcases h2 with h2 | ⟨h2e, h2r⟩
            · exact Or.inl (hc.lt_trans _ _ _ h1 h2)
            · rw [hc.eq_iff] at h2e
              exact Or.inl (h2e ▸ h1)
          · rw [hc.eq_iff] at h1e
            rcases h2 with h2 | ⟨h2e, h2r⟩
            · exact Or.inl (h1e ▸ h2)
            · rw [hc.eq_iff] at h2e
              exact Or.inr ⟨by rw [hc.eq_iff, h1e, h2e], ih ys zs h1r h2r⟩

theorem lawCmpStr : LawCmp cmpStr := by
  have : Function.Injective String.toList := by
    intro a b h
    exact String.ext h
  exact lawCmp_comap (lawCmp_list lawCmpChar) String.toList this

theorem lawCmpRecord : LawCmp cmpRecord :=
  lawCmp_prod (lawCmp_opt (lawCmp_list lawCmpNat))
    (lawCmp_prod lawCmpStr (lawCmp_list lawCmpStr))

theorem cmpRecord_refl (a : Record) : cmpRecord a a = .eq :=
  (lawCmpRecord.eq_iff a a).mpr rfl

theorem cmpRecord_gt_iff (a b : Record) : cmpRecord a b = .gt ↔ cmpRecord b a = .lt := by
  have h := lawCmpRecord.symm b a
  cases hh : cmpRecord b a <;> rw [hh] at h <;> simp [Ordering.swap] at h <;> simp [← h]

theorem recLe_iff (a b : Record) : recLe a b = true ↔ cmpRecord a b ≠ .gt := by
  unfold recLe
  cases h : cmpRecord a b <;> simp

theorem recLe_refl (a : Record) : recLe a a = true := by
  rw [recLe_iff, cmpRecord_refl]
  simp

theorem recLe_total (a b : Record) : recLe a b = true ∨ recLe b a = true := by
  rw [recLe_iff, recLe_iff]
  cases h : cmpRecord a b with
  | lt => simp
  | eq => simp
  | gt =>
    right
    rw [cmpRecord_gt_iff] at h
    simp [h]

theorem recLe_trans {a b c : Record} (h1 : recLe a b = true) (h2 : recLe b c = true) :
    recLe a c = true := by
  rw [recLe_iff] at *
  cases hab : cmpRecord a b with
  | gt => exact absurd hab h1
  | eq =>
    rw [lawCmpRecord.eq_iff] at hab
    rw [hab]
    exact h2
  | lt =>
    cases hbc : cmpRecord b c with
    | gt => exact absurd hbc h2
    | eq =>
      rw [lawCmpRecord.eq_iff] at hbc
      rw [← hbc]
      simp [hab]
    | lt =>
      have := lawCmpRecord.lt_trans a b c hab hbc
      simp [this]

theorem recLe_antisymm {a b : Record} (h1 : recLe a b = true) (h2 : recLe b a = true) :
    a = b := by
  rw [recLe_iff] at *
  cases hab : cmpRecord a b with
  | eq => exact (lawCmpRecord.eq_iff a b).mp hab
  | gt => exact absurd hab h1
  | lt =>
    rw [← cmpRecord_gt_iff] at hab
    exact absurd hab h2

theorem recLe_ne_of_lt {a b : Record} (h1 : recLe a b = true) (h2 : a ≠ b) :
    recLe b a = false := by
  cases h : recLe b a with
  | false => rfl
  | true => exact absurd (recLe_antisymm h1 h) h2

theorem mem_insertRec (x a : Record) (l : List Record) :
    x ∈ insertRec a l ↔ x = a ∨ x ∈ l := by
  induction l with
  | nil => simp [insertRec]
  | cons b t ih =>
    unfold insertRec
    split
    · simp
    · simp [ih]
      tauto

theorem mem_sortRecs (x : Record) (l : List Record) : x ∈ sortRecs l ↔ x ∈ l := by
  induction l with
  | nil => simp [sortRecs]
  | cons a t ih => simp [sortRecs, mem_insertRec, ih]

theorem pairwise_insertRec (a : Record) (l : List Record)
    (h : List.Pairwise (fun x y => recLe x y = true) l) :
    List.Pairwise (fun x y => recLe x y = true) (insertRec a l) := by
  induction l with
  | nil => simp [insertRec]
  | cons b t ih =>
    rw [List.pairwise_cons] at h
    unfold insertRec
    split
    next hab =>
      rw [List.pairwise_cons]
      refine ⟨?_, List.pairwise_cons.mpr h⟩
      intro y hy
      rcases List.mem_cons.mp hy with rfl | hy
      · exact hab
      · exact recLe_trans hab (h.1 y hy)
    next hab =>
      have hba : recLe b a = true := by
        rcases recLe_total a b with ht | ht
        · exact absurd ht hab
        · exact ht
      rw [List.pairwise_cons]
      refine ⟨?_, ih h.2⟩
      intro y hy
      rcases (mem_insertRec y a t).mp hy with rfl | hy
      · exact hba
      · exact h.1 y hy

theorem sorted_sortRecs (l : List Record) :
    List.Pairwise (fun x y => recLe x y = true) (sortRecs l) := by
  induction l with
  | nil => simp [sortRecs]
  | cons a t ih => exact pairwise_insertRec a (sortRecs t) ih

theorem dedupFrom_sublist (l : List Record) : ∀ a, (dedupFrom a l).Sublist l := by
  induction l with
  | nil => intro a; simp [dedupFrom]
  | cons b t ih =>
    intro a
    unfold dedupFrom
    split
    · exact (ih a).cons b
    · exact (ih b).cons₂ b

theorem dedupConsec_sublist (l : List Record) : (dedupConsec l).Sublist l := by
  cases l with
  | nil => simp [dedupConsec]
  | cons a t => exact (dedupFrom_sublist t a).cons₂ a

theorem mem_dedupFrom_of (x : Record) (l : List Record) :
    ∀ a, x ∈ l → x = a ∨ x ∈ dedupFrom a l := by
  induction l with
  | nil => intro a h; cases h
  | cons b t ih =>
    intro a hx
    unfold dedupFrom
    split
    next hab =>
      rcases List.mem_cons.mp hx with rfl | hx
      · exact Or.inl hab.symm
      · exact ih a hx
    next hab =>
      rcases List.mem_cons.mp hx with rfl | hx
      · exact Or.inr (List.mem_cons_self _ _)
      · rcases ih b hx with rfl | h
        · exact Or.inr (List.mem_cons_self _ _)
        · exact Or.inr (List.mem_cons_of_mem _ h)

theorem mem_dedupConsec (x : Record) (l : List Record) :
    x ∈ dedupConsec l ↔ x ∈ l := by
  constructor
  · intro h
    exact (dedupConsec_sublist l).mem h
  · intro h
    cases l with
    | nil => cases h
    | cons a t =>
      unfold dedupConsec
      rcases List.mem_cons.mp h with rfl | hx
      · exact List.mem_cons_self _ _
      · rcases mem_dedupFrom_of x t a hx with rfl | h
        · exact List.mem_cons_self _ _
        · exact List.mem_cons_of_mem _ h

theorem mem_sortedBacklinks (x : Record) (rs : List Record) :
    x ∈ sortedBacklinks rs ↔ x ∈ rs := by
  unfold sortedBacklinks
  rw [mem_dedupConsec, mem_sortRecs]

theorem pairwise_sortedBacklinks (rs : List Record) :
    List.Pairwise (fun x y => recLe x y = true) (sortedBacklinks rs) :=
  List.Pairwise.sublist (dedupConsec_sublist (sortRecs rs)) (sorted_sortRecs rs)

theorem pairwise_lt_dedupFrom (l : List Record) :
    ∀ a, List.Pairwise (fun x y => recLe x y = true) (a :: l) →
      List.Pairwise (fun x y => recLe x y = true ∧ x ≠ y) (a :: dedupFrom a l) := by
  induction l with
  | nil => intro a _; simp [dedupFrom]
  | cons b t ih =>
    intro a h
    rw [List.pairwise_cons] at h
    obtain ⟨hhead, htail⟩ := h
    rw [List.pairwise_cons] at htail
    obtain ⟨hb, ht⟩ := htail
    unfold dedupFrom
    split
    next hab =>
      subst hab
      exact ih a (List.pairwise_cons.mpr ⟨hb, ht⟩)
    next hab =>
      have hres := ih b (List.pairwise_cons.mpr ⟨hb, ht⟩)
      rw [List.pairwise_cons]
      refine ⟨?_, hres⟩
      intro y hy
      rcases List.mem_cons.mp hy with rfl | hy
      · exact ⟨hhead y (List.mem_cons_self _ _), hab⟩
      · have hyt : y ∈ t := (dedupFrom_sublist t b).mem hy
        refine ⟨hhead y (List.mem_cons_of_mem _ hyt), ?_⟩
        intro hya
        have h1 : recLe a b = true := hhead b (List.mem_cons_self _ _)
        have h2 : recLe b y = true := hb y hyt
        rw [← hya] at h2
        exact hab (recLe_antisymm h2 h1).symm

theorem nodup_sortedBacklinks (rs : List Record) : (sortedBacklinks rs).Nodup := by
  unfold sortedBacklinks
  cases h : sortRecs rs with
  | nil => simp [dedupConsec]
  | cons a t =>
    have hs := sorted_sortRecs rs
    rw [h] at hs
    have := pairwise_lt_dedupFrom t a hs
    unfold dedupConsec
    exact this.imp (fun hxy => hxy.2)

theorem sortedBacklinks_nil : sortedBacklinks [] = [] := rfl

theorem count_sortedBacklinks (r : Record) (rs : List Record) (h : r ∈ rs) :
    (sortedBacklinks rs).countP (fun x => decide (x = r)) = 1 := by
  have hc := List.count_eq_one_of_mem (nodup_sortedBacklinks rs) ((mem_sortedBacklinks r rs).mpr h)
  exact hc

mutual

theorem itemChapters_forEach (f : ChInfo → ChInfo) :
    (i : BookItem) → itemChapters (forEachItem f i) = (itemChapters i).map f
  | .chapter info subs => by
    simp [forEachItem, itemChapters, listChapters_forEach f subs]
  | .other => by simp [forEachItem, itemChapters]

theorem listChapters_forEach (f : ChInfo → ChInfo) :
    (l : List BookItem) → listChapters (forEachList f l) = (listChapters l).map f
  | [] => by simp [forEachList, listChapters]
  | i :: is => by
    simp [forEachList, listChapters, itemChapters_forEach f i, listChapters_forEach f is]

end

theorem strConcat_append (xs ys : List String) :
    strConcat (xs ++ ys) = strConcat xs ++ strConcat ys := by
  induction xs with
  | nil => simp [strConcat]
  | cons s t ih => simp [strConcat, ih, String.append_assoc]

theorem itemFold_events (dir : PathSegs) (rs : List Record) :
    ∀ b : MarkdownBuilder,
      (rs.foldl (itemFold dir) b).events =
      b.events ++ rs.flatMap (fun r =>
        [ MdEvent.startItem, .startLink (pathToString (diffPaths r.2.2 dir)),
          .text r.2.1, .endLink, .endItem ]) := by
  induction rs with
  | nil => intro b; simp
  | cons r t ih =>
    intro b
    rw [List.foldl_cons, ih]
    simp [itemFold, MarkdownBuilder.tag, MarkdownBuilder.event, MarkdownBuilder.simpleLink,
      MarkdownBuilder.text]

theorem buildFragmentEvents_eq (rs : List Record) (dir : PathSegs) :
    buildFragmentEvents rs dir =
      [ MdEvent.rule, .startBQ, .startH4, .text "Backlinks", .endH4, .startList ] ++
      rs.flatMap (fun r =>
        [ MdEvent.startItem, .startLink (pathToString (diffPaths r.2.2 dir)),
          .text r.2.1, .endLink, .endItem ]) ++
      [ MdEvent.endList, .endBQ ] := by
  unfold buildFragmentEvents
  simp only [MarkdownBuilder.tag, MarkdownBuilder.simpleHeading, MarkdownBuilder.text]
  rw [MarkdownBuilder.event, MarkdownBuilder.event]
  rw [itemFold_events]
  simp [MarkdownBuilder.event]

theorem renderEvents_items (dir : PathSegs) (rs : List Record) (tail : List MdEvent) :
    renderEvents [] (rs.flatMap (fun r =>
        [ MdEvent.startItem, .startLink (pathToString (diffPaths r.2.2 dir)),
          .text r.2.1, .endLink, .endItem ]) ++ tail) =
      strConcat (rs.map (backlinkItemStr dir)) ++ renderEvents [] tail := by
  induction rs with
  | nil => simp [strConcat]
  | cons r t ih =>
    rw [List.flatMap_cons]
    simp only [List.cons_append, List.append_assoc]
    rw [renderEvents, renderEvents, renderEvents, renderEvents, renderEvents]
    rw [List.map_cons]
    rw [show strConcat (backlinkItemStr dir r :: List.map (backlinkItemStr dir) t) =
      backlinkItemStr dir r ++ strConcat (List.map (backlinkItemStr dir) t) from rfl]
    rw [backlinkItemStr]
    simp [← String.append_assoc, ih]

theorem renderFragment_eq (rs : List Record) (dir : PathSegs) :
    renderEvents [] (buildFragmentEvents rs dir) =
      backlinksHeader ++ strConcat (rs.map (backlinkItemStr dir)) := by
  rw [buildFragmentEvents_eq, List.append_assoc]
  rw [show ([ MdEvent.rule, .startBQ, .startH4, .text "Backlinks", .endH4, .startList ] :
    List MdEvent) = MdEvent.rule :: [ MdEvent.startBQ, .startH4, .text "Backlinks", .endH4,
      .startList ] from rfl]
  rw [show (MdEvent.rule :: [ MdEvent.startBQ, .startH4, .text "Backlinks", .endH4,
    .startList ]) ++ (rs.flatMap (fun r =>
        [ MdEvent.startItem, .startLink (pathToString (diffPaths r.2.2 dir)),
          .text r.2.1, .endLink, .endItem ]) ++ [ MdEvent.endList, .endBQ ]) =
    MdEvent.rule :: MdEvent.startBQ :: MdEvent.startH4 :: MdEvent.text "Backlinks" ::
      MdEvent.endH4 :: MdEvent.startList :: (rs.flatMap (fun r =>
        [ MdEvent.startItem, .startLink (pathToString (diffPaths r.2.2 dir)),
          .text r.2.1, .endLink, .endItem ]) ++ [ MdEvent.endList, .endBQ ]) from rfl]
  rw [renderEvents, renderEvents, renderEvents, renderEvents, renderEvents, renderEvents]
  rw [renderEvents_items]
  rw [show renderEvents [] [ MdEvent.endList, .endBQ ] = "" from rfl]
  rw [String.append_empty, backlinksHeader]
  simp [← String.append_assoc]

theorem spliceChapter_content (idx : Index) (c : ChInfo) (sp p : PathSegs) (v : List Record)
    (h1 : c.source_path = some sp) (h2 : normalizePath sp = .ok p)
    (h3 : alGet p idx = some v) (h4 : v ≠ []) :
    spliceChapter idx c = ChInfo.mk c.name
      (c.content ++ "\n\n" ++ backlinksHeader ++
        strConcat ((sortedBacklinks v).map (backlinkItemStr (parentDir p))))
      c.number c.source_path := by
  simp only [spliceChapter, h1, h2, h3]
  rw [if_pos (by cases v with | nil => exact absurd rfl h4 | cons a t => simp)]
  rw [renderFragment_eq]
  simp [← String.append_assoc]

theorem spliceChapter_id (idx : Index) (c : ChInfo)
    (h : ∀ sp p v, c.source_path = some sp → normalizePath sp = .ok p →
      alGet p idx = some v → v = []) :
    spliceChapter idx c = c := by
  simp only [spliceChapter]
  cases hsp : c.source_path with
  | none => rfl
  | some sp =>
    simp only []
    cases hn : normalizePath sp with
    | error e => rfl
    | ok p =>
      simp only []
      cases hg : alGet p idx with
      | none => rfl
      | some v =>
        have hv : v = [] := h sp p v hsp hn hg
        subst hv
        simp

theorem spliceChapter_fields (idx : Index) (c : ChInfo) :
    (spliceChapter idx c).name = c.name ∧ (spliceChapter idx c).number = c.number ∧
    (spliceChapter idx c).source_path = c.source_path ∧
    ∃ s, (spliceChapter idx c).content = c.content ++ s := by
  simp only [spliceChapter]
  cases hsp : c.source_path with
  | none => exact ⟨rfl, rfl, hsp, "", (String.append_empty _).symm⟩
  | some sp =>
    simp only []
    cases hn : normalizePath sp with
    | error e => exact ⟨rfl, rfl, hsp, "", (String.append_empty _).symm⟩
    | ok p =>
      simp only []
      cases hg : alGet p idx with
      | none => exact ⟨rfl, rfl, hsp, "", (String.append_empty _).symm⟩
      | some v =>
        simp only []
        by_cases hv : v.length ≥ 1
        · rw [if_pos hv]
          refine ⟨rfl, rfl, ?_, "\n\n" ++
              renderEvents [] (buildFragmentEvents (sortedBacklinks v) (parentDir p)),
              by simp [String.append_assoc]⟩
          simp [hsp]
        · rw [if_neg hv]
          exact ⟨rfl, rfl, hsp, "", (String.append_empty _).symm⟩

theorem alGet_alInsert_self (k : PathSegs) (v : List Record) (m : Index) :
    alGet k (alInsert k v m) = some v := by
  induction m with
  | nil => simp [alInsert, alGet]
  | cons e t ih =>
    obtain ⟨k', v'⟩ := e
    unfold alInsert
    split
    next h => simp [alGet]
    next h => simp [alGet, h, ih]

theorem alKeys_cons (k' : PathSegs) (v' : List Record) (t : Index) :
    alKeys ((k', v') :: t) = k' :: alKeys t := rfl

theorem alGet_alInsert_ne (k q : PathSegs) (hne : q ≠ k) (v : List Record) (m : Index) :
    alGet q (alInsert k v m) = alGet q m := by
  induction m with
  | nil =>
    simp only [alInsert, alGet]
    rw [if_neg (fun h => hne h.symm)]
  | cons e t ih =>
    obtain ⟨k', v'⟩ := e
    unfold alInsert
    split
    next he =>
      subst he
      simp only [alGet]
      rw [if_neg (fun h => hne h.symm), if_neg (fun h => hne h.symm)]
    next he =>
      simp only [alGet]
      rw [ih]

theorem mem_alKeys_alInsert (k q : PathSegs) (v : List Record) (m : Index)
    (h : q ∈ alKeys (alInsert k v m)) : q = k ∨ q ∈ alKeys m := by
  induction m with
  | nil =>
    rw [show alInsert k v [] = [ (k, v) ] from rfl, alKeys_cons] at h
    rcases List.mem_cons.mp h with h | h
    · exact Or.inl h
    · cases h
  | cons e t ih =>
    obtain ⟨k', v'⟩ := e
    unfold alInsert at h
    split at h
    next he =>
      subst he
      rw [alKeys_cons] at h
      rw [alKeys_cons]
      rcases List.mem_cons.mp h with h | h
      · exact Or.inl h
      · exact Or.inr (List.mem_cons_of_mem _ h)
    next he =>
      rw [alKeys_cons] at h
      rw [alKeys_cons]
      rcases List.mem_cons.mp h with h | h
      · exact Or.inr (h ▸ List.mem_cons_self _ _)
      · rcases ih h with h | h
        · exact Or.inl h
        · exact Or.inr (List.mem_cons_of_mem _ h)

theorem alKeys_alAppend (k : PathSegs) (r : Record) (m : Index) :
    alKeys (alAppend k r m) = alKeys m := by
  induction m with
  | nil => rfl
  | cons e t ih =>
    obtain ⟨k', v'⟩ := e
    unfold alAppend
    split
    next h => rw [alKeys_cons, alKeys_cons]
    next h => rw [alKeys_cons, alKeys_cons, ih]

theorem alGet_alAppend_self (k : PathSegs) (r : Record) (m : Index) (v : List Record)
    (h : alGet k m = some v) : alGet k (alAppend k r m) = some (v ++ [ r ]) := by
  induction m with
  | nil => simp [alGet] at h
  | cons e t ih =>
    obtain ⟨k', v'⟩ := e
    unfold alAppend
    unfold alGet at h
    split
    next he =>
      rw [alGet]
      simp [he] at h ⊢
      rw [h]
    next he =>
      rw [alGet]
      simp [he] at h ⊢
      exact ih h

theorem alGet_alAppend_ne (k q : PathSegs) (hne : q ≠ k) (r : Record) (m : Index) :
    alGet q (alAppend k r m) = alGet q m := by
  induction m with
  | nil => rfl
  | cons e t ih =>
    obtain ⟨k', v'⟩ := e
    unfold alAppend
    split
    next he =>
      subst he
      simp only [alGet]
      rw [if_neg (fun h => hne h.symm), if_neg (fun h => hne h.symm)]
    next he =>
      simp only [alGet]
      rw [ih]

theorem growStep_processLink (p : PathSegs) (r : Record) : GrowStep (processLink p r) := by
  intro idx dest idx' h k v hv
  unfold processLink at h
  split at h
  · cases h
  · rename_i d hn
    split at h
    · cases h
      by_cases hkd : k = d
      · subst hkd
        exact ⟨[ r ], alGet_alAppend_self k r idx v hv⟩
      · exact ⟨[], by simp [alGet_alAppend_ne d k hkd r idx, hv]⟩
    · cases h
      exact ⟨[], by simp [hv]⟩

theorem foldE_grow {f : Index → α → Except NormError Index} (hf : GrowStep f) :
    ∀ (l : List α) (idx idx' : Index), foldE f idx l = .ok idx' →
      ∀ k v, alGet k idx = some v → ∃ w, alGet k idx' = some (v ++ w) := by
  intro l
  induction l with
  | nil =>
    intro idx idx' h k v hv
    unfold foldE at h
    simp at h
    subst h
    exact ⟨[], by simp [hv]⟩
  | cons a t ih =>
    intro idx idx' h k v hv
    unfold foldE at h
    cases hfa : f idx a with
    | error e => rw [hfa] at h; cases h
    | ok idx1 =>
      rw [hfa] at h
      obtain ⟨w1, hw1⟩ := hf idx a idx1 hfa k v hv
      obtain ⟨w2, hw2⟩ := ih idx1 idx' h k (v ++ w1) hw1
      exact ⟨w1 ++ w2, by rw [hw2, List.append_assoc]⟩

theorem processLink_keys (p : PathSegs) (r : Record) (idx : Index) (dest : String)
    (idx' : Index) (h : processLink p r idx dest = .ok idx') : alKeys idx' = alKeys idx := by
  unfold processLink at h
  split at h
  · cases h
  · rename_i d hn
    split at h
    · cases h
      exact alKeys_alAppend d r idx
    · cases h
      rfl

theorem foldE_keys {f : Index → α → Except NormError Index}
    (hf : ∀ idx a idx', f idx a = .ok idx' → alKeys idx' = alKeys idx) :
    ∀ (l : List α) (idx idx' : Index), foldE f idx l = .ok idx' →
      alKeys idx' = alKeys idx := by
  intro l
  induction l with
  | nil =>
    intro idx idx' h
    unfold foldE at h
    cases h
    rfl
  | cons a t ih =>
    intro idx idx' h
    unfold foldE at h
    split at h
    · rename_i idx1 hfa
      rw [ih idx1 idx' h, hf idx a idx1 hfa]
    · cases h

theorem populateChapter_keys (idx : Index) (c : ChInfo) (idx' : Index)
    (h : populateChapter idx c = .ok idx') : alKeys idx' = alKeys idx := by
  unfold populateChapter at h
  split at h
  · cases h
    rfl
  · rename_i sp hsp
    split at h
    · cases h
    · rename_i p hn
      exact foldE_keys (fun i d i' hh => processLink_keys p (c.number, c.name, p) i d i' hh)
        (extractLinks c.content) idx idx' h

theorem growStep_populateChapter : GrowStep populateChapter := by
  intro idx c idx' h k v hv
  unfold populateChapter at h
  split at h
  · cases h
    exact ⟨[], by simp [hv]⟩
  · rename_i sp hsp
    split at h
    · cases h
    · rename_i p hn
      exact foldE_grow (growStep_processLink p (c.number, c.name, p))
        (extractLinks c.content) idx idx' h k v hv

theorem seedFold_some_mono :
    ∀ (cs : List ChInfo) (idx idx' : Index), foldE seedChapter idx cs = .ok idx' →
      ∀ k, (alGet k idx).isSome → (alGet k idx').isSome := by
  intro cs
  induction cs with
  | nil =>
    intro idx idx' h k hk
    unfold foldE at h
    cases h
    exact hk
  | cons a t ih =>
    intro idx idx' h k hk
    unfold foldE at h
    split at h
    · rename_i idx1 hfa
      refine ih idx1 idx' h k ?_
      unfold seedChapter at hfa
      split at hfa
      · cases hfa
        exact hk
      · rename_i sp hsp
        split at hfa
        · cases hfa
        · rename_i p hn
          cases hfa
          by_cases hkp : k = p
          · subst hkp
            rw [alGet_alInsert_self]
            rfl
          · rw [alGet_alInsert_ne p k hkp]
            exact hk
    · cases h

theorem seedFold_mem :
    ∀ (cs : List ChInfo) (idx idx' : Index), foldE seedChapter idx cs = .ok idx' →
      ∀ c ∈ cs, ∀ sp p, c.source_path = some sp → normalizePath sp = .ok p →
        (alGet p idx').isSome := by
  intro cs
  induction cs with
  | nil =>
    intro idx idx' h c hc
    cases hc
  | cons a t ih =>
    intro idx idx' h c hc sp p hsp hn
    unfold foldE at h
    split at h
    · rename_i idx1 hfa
      rcases List.mem_cons.mp hc with rfl | hc
      · refine seedFold_some_mono t idx1 idx' h p ?_
        unfold seedChapter at hfa
        split at hfa
        · rename_i hnone
          rw [hsp] at hnone
          cases hnone
        · rename_i sp' hsp'
          rw [hsp] at hsp'
          cases hsp'
          split at hfa
          · cases hfa
          · rename_i p' hn'
            rw [hn] at hn'
            cases hn'
            cases hfa
            rw [alGet_alInsert_self]
            rfl
      · exact ih idx1 idx' h c hc sp p hsp hn
    · cases h

theorem seedFold_ok_norm :
    ∀ (cs : List ChInfo) (idx idx' : Index), foldE seedChapter idx cs = .ok idx' →
      ∀ c ∈ cs, ∀ sp, c.source_path = some sp → ∃ p, normalizePath sp = .ok p := by
  intro cs
  induction cs with
  | nil =>
    intro idx idx' h c hc
    cases hc
  | cons a t ih =>
    intro idx idx' h c hc sp hsp
    unfold foldE at h
    split at h
    · rename_i idx1 hfa
      rcases List.mem_cons.mp hc with rfl | hc
      · unfold seedChapter at hfa
        split at hfa
        · rename_i hnone
          rw [hsp] at hnone
          cases hnone
        · rename_i sp' hsp'
          rw [hsp] at hsp'
          cases hsp'
          split at hfa
          · cases hfa
          · rename_i p' hn'
            exact ⟨p', hn'⟩
      · exact ih idx1 idx' h c hc sp hsp
    · cases h

theorem seedFold_keys :
    ∀ (cs : List ChInfo) (idx idx' : Index), foldE seedChapter idx cs = .ok idx' →
      ∀ k, k ∈ alKeys idx' → k ∈ alKeys idx ∨
        ∃ c ∈ cs, ∃ sp, c.source_path = some sp ∧ normalizePath sp = .ok k := by
  intro cs
  induction cs with
  | nil =>
    intro idx idx' h k hk
    unfold foldE at h
    cases h
    exact Or.inl hk
  | cons a t ih =>
    intro idx idx' h k hk
    unfold foldE at h
    split at h
    · rename_i idx1 hfa
      rcases ih idx1 idx' h k hk with h1 | ⟨c, hc, sp, hsp, hn⟩
      · unfold seedChapter at hfa
        split at hfa
        · cases hfa
          exact Or.inl h1
        · rename_i sp hsp
          split at hfa
          · cases hfa
          · rename_i p hn
            cases hfa
            rcases mem_alKeys_alInsert p k [] idx h1 with rfl | h2
            · exact Or.inr ⟨a, List.mem_cons_self _ _, sp, hsp, hn⟩
            · exact Or.inl h2
      · exact Or.inr ⟨c, List.mem_cons_of_mem _ hc, sp, hsp, hn⟩
    · cases h

theorem linkFold_ok_norm :
    ∀ (links : List String) (idx idx' : Index) (p : PathSegs) (r : Record),
      foldE (processLink p r) idx links = .ok idx' → ∀ dest ∈ links,
        ∃ d, normalizePath (parentDir p ++ pathFromString dest) = .ok d := by
  intro links
  induction links with
  | nil =>
    intro idx idx' p r h dest hd
    cases hd
  | cons a t ih =>
    intro idx idx' p r h dest hd
    unfold foldE at h
    split at h
    · rename_i idx1 hfa
      rcases List.mem_cons.mp hd with rfl | hd
      · unfold processLink at hfa
        split at hfa
        · cases hfa
        · rename_i d hn
          exact ⟨d, hn⟩
      · exact ih idx1 idx' p r h dest hd
    · cases h

theorem popFold_ok_norm :
    ∀ (cs : List ChInfo) (idx idx' : Index), foldE populateChapter idx cs = .ok idx' →
      ∀ c ∈ cs, ∀ sp p, c.source_path = some sp → normalizePath sp = .ok p →
        ∀ dest ∈ extractLinks c.content,
          ∃ d, normalizePath (parentDir p ++ pathFromString dest) = .ok d := by
  intro cs
  induction cs with
  | nil =>
    intro idx idx' h c hc
    cases hc
  | cons a t ih =>
    intro idx idx' h c hc sp p hsp hn dest hdest
    unfold foldE at h
    split at h
    · rename_i idx1 hfa
      rcases List.mem_cons.mp hc with rfl | hc
      · unfold populateChapter at hfa
        split at hfa
        · rename_i hnone
          rw [hsp] at hnone
          cases hnone
        · rename_i sp' hsp'
          rw [hsp] at hsp'
          cases hsp'
          split at hfa
          · rename_i e hn'
            rw [hn] at hn'
            cases hn'
          · rename_i p' hn'
            rw [hn] at hn'
            cases hn'
            exact linkFold_ok_norm (extractLinks c.content) idx idx1 p
              (c.number, c.name, p) hfa dest hdest
      · exact ih idx1 idx' h c hc sp p hsp hn dest hdest
    · cases h

theorem linkFold_mem :
    ∀ (links : List String) (idx idx' : Index) (p d : PathSegs) (r : Record)
      (dest : String) (v : List Record),
      foldE (processLink p r) idx links = .ok idx' → dest ∈ links →
      normalizePath (parentDir p ++ pathFromString dest) = .ok d →
      alGet d idx = some v → r ∈ (alGet d idx').getD [] := by
  intro links
  induction links with
  | nil =>
    intro idx idx' p d r dest v h hmem
    cases hmem
  | cons a t ih =>
    intro idx idx' p d r dest v h hmem hn hv
    unfold foldE at h
    split at h
    · rename_i idx1 hfa
      rcases List.mem_cons.mp hmem with rfl | hmem
      · have h1 : alGet d idx1 = some (v ++ [ r ]) := by
          unfold processLink at hfa
          split at hfa
          · cases hfa
          · rename_i d' hn'
            rw [hn] at hn'
            cases hn'
            split at hfa
            · cases hfa
              exact alGet_alAppend_self d r idx v hv
            · rename_i hg0
              rw [hv] at hg0
              cases hg0
        obtain ⟨w, hw⟩ := foldE_grow (growStep_processLink p r) t idx1 idx' h d
          (v ++ [ r ]) h1
        rw [hw]
        simp
      · obtain ⟨w1, hw1⟩ := growStep_processLink p r idx a idx1 hfa d v hv
        exact ih idx1 idx' p d r dest (v ++ w1) h hmem hn hw1
    · cases h

theorem popFold_mem :
    ∀ (cs : List ChInfo) (idx idx' : Index), foldE populateChapter idx cs = .ok idx' →
      ∀ c ∈ cs, ∀ sp p dest d,
        c.source_path = some sp → normalizePath sp = .ok p →
        dest ∈ extractLinks c.content →
        normalizePath (parentDir p ++ pathFromString dest) = .ok d →
        (alGet d idx).isSome →
        (c.number, c.name, p) ∈ (alGet d idx').getD [] := by
  intro cs
  induction cs with
  | nil =>
    intro idx idx' h c hc
    cases hc
  | cons a t ih =>
    intro idx idx' h c hc sp p dest d hsp hn hdest hnd hsome
    unfold foldE at h
    split at h
    · rename_i idx1 hfa
      rcases List.mem_cons.mp hc with rfl | hc
      · obtain ⟨v, hv⟩ := Option.isSome_iff_exists.mp hsome
        have hmem1 : (c.number, c.name, p) ∈ (alGet d idx1).getD [] := by
          unfold populateChapter at hfa
          split at hfa
          · rename_i hnone
            rw [hsp] at hnone
            cases hnone
          · rename_i sp' hsp'
            rw [hsp] at hsp'
            cases hsp'
            split at hfa
            · rename_i e hn'
              rw [hn] at hn'
              cases hn'
            · rename_i p' hn'
              rw [hn] at hn'
              cases hn'
              exact linkFold_mem (extractLinks c.content) idx idx1 p d
                (c.number, c.name, p) dest v hfa hdest hnd hv
        cases hg1 : alGet d idx1 with
        | none =>
          rw [hg1] at hmem1
          cases hmem1
        | some v1 =>
          rw [hg1] at hmem1
          obtain ⟨w, hw⟩ := foldE_grow growStep_populateChapter t idx1 idx' h d v1 hg1
          rw [hw]
          simp only [Option.getD_some] at hmem1 ⊢
          exact List.mem_append.mpr (Or.inl hmem1)
      · obtain ⟨v, hv⟩ := Option.isSome_iff_exists.mp hsome
        obtain ⟨w1, hw1⟩ := growStep_populateChapter idx a idx1 hfa d v hv
        refine ih idx1 idx' h c hc sp p dest d hsp hn hdest hnd ?_
        rw [hw1]
        rfl
    · cases h

theorem buildIndex_parts (b : Book) (idx : Index) (h : buildIndex b = .ok idx) :
    ∃ idx0, seedIndex (listChapters b) = .ok idx0 ∧
      foldE populateChapter idx0 (listChapters b) = .ok idx := by
  unfold buildIndex at h
  split at h
  · cases h
  · rename_i idx0 hseed
    exact ⟨idx0, hseed, h⟩

theorem process_book_parts (b b' : Book) (h : process_book b = .ok b') :
    ∃ idx, buildIndex b = .ok idx ∧ b' = forEachList (spliceChapter idx) b := by
  unfold process_book at h
  split at h
  · cases h
  · rename_i idx hidx
    cases h
    exact ⟨idx, hidx, rfl⟩

theorem normError_eq (e : NormError) : e = .escapesRoot := by
  cases e
  rfl

theorem normSegs_ok_clean :
    ∀ (l acc r : List String), normSegs acc l = .ok r →
      (∀ s ∈ acc, s ≠ "" ∧ s ≠ "." ∧ s ≠ "..") →
      ∀ s ∈ r, s ≠ "" ∧ s ≠ "." ∧ s ≠ ".." := by
  intro l
  induction l with
  | nil =>
    intro acc r h hacc s hs
    unfold normSegs at h
    cases h
    exact hacc s (List.mem_reverse.mp hs)
  | cons x t ih =>
    intro acc r h hacc s hs
    unfold normSegs at h
    split at h
    · exact ih acc r h hacc s hs
    · split at h
      · split at h
        · cases h
        · rename_i y acc'
          refine ih acc' r h ?_ s hs
          intro z hz
          exact hacc z (List.mem_cons_of_mem _ hz)
      · rename_i h1 h2
        refine ih (x :: acc) r h ?_ s hs
        intro z hz
        rcases List.mem_cons.mp hz with rfl | hz
        · push_neg at h1
          exact ⟨h1.1, h1.2, h2⟩
        · exact hacc z hz

theorem normSegs_clean_id :
    ∀ (l acc : List String), (∀ s ∈ l, s ≠ "" ∧ s ≠ "." ∧ s ≠ "..") →
      normSegs acc l = .ok (acc.reverse ++ l) := by
  intro l
  induction l with
  | nil =>
    intro acc hcl
    unfold normSegs
    rw [List.append_nil]
  | cons x t ih =>
    intro acc hcl
    obtain ⟨hx1, hx2, hx3⟩ := hcl x (List.mem_cons_self _ _)
    unfold normSegs
    rw [if_neg (by simp [hx1, hx2]), if_neg hx3]
    rw [ih (x :: acc) (fun z hz => hcl z (List.mem_cons_of_mem _ hz))]
    simp

theorem cmpList_self_append {c : α → α → Ordering} (hc : LawCmp c) :
    ∀ (n e : List α), e ≠ [] → cmpList c n (n ++ e) = .lt := by
  intro n
  induction n with
  | nil =>
    intro e he
    cases e with
    | nil => exact absurd rfl he
    | cons x xs => simp [cmpList]
  | cons a as ih =>
    intro e he
    rw [List.cons_append]
    unfold cmpList
    rw [(hc.eq_iff a a).mpr rfl, ih e he]
    rfl

/-- C9: path normalization is idempotent — whenever `normalizePath`
succeeds, running it again on the result succeeds and returns the same
path. -/
theorem C9_normalize_idempotent (p q : PathSegs) (h : normalizePath p = .ok q) :
    normalizePath q = .ok q := by
  have hq : ∀ s ∈ q, s ≠ "" ∧ s ≠ "." ∧ s ≠ ".." := by
    refine normSegs_ok_clean ( "." :: p) [] q h ?_
    intro s hs
    cases hs
  unfold normalizePath
  rw [show normSegs [] ( "." :: q) = normSegs [] q from by rw [normSegs]; simp]
  rw [normSegs_clean_id q [] hq]
  simp

/-- Witness for C9 at the concrete path `a/../b`. -/
theorem C9_witness :
    normalizePath [ "a", "..", "b" ] = .ok [ "b" ] ∧
    normalizePath [ "b" ] = .ok [ "b" ] :=
  ⟨rfl, C9_normalize_idempotent [ "a", "..", "b" ] [ "b" ] rfl⟩

/-- C3: a link destination that resolves (relative to the linking
chapter's directory) to a path that is not a key of the index is skipped
silently — the per-link step succeeds and leaves the index unchanged, so
no entry is created and no error is raised. -/
theorem C3_external_link_skipped (idx : Index) (p : PathSegs) (r : Record) (dest : String)
    (d : PathSegs) (h1 : normalizePath (parentDir p ++ pathFromString dest) = .ok d)
    (h2 : alGet d idx = none) : processLink p r idx dest = .ok idx := by
  simp [processLink, h1, h2]

/-- Witness for C3: an `https://example.com` destination in a one-chapter
book resolves to a non-chapter path and is skipped. -/
theorem C3_witness :
    normalizePath (parentDir [ "a.md" ] ++ pathFromString "https://example.com") =
      .ok [ "https:", "example.com" ] ∧
    alGet [ "https:", "example.com" ] [ ([ "a.md" ], []) ] = none ∧
    processLink [ "a.md" ] (none, "a", [ "a.md" ]) [ ([ "a.md" ], []) ]
      "https://example.com" = .ok [ ([ "a.md" ], []) ] :=
  ⟨rfl, rfl, C3_external_link_skipped [ ([ "a.md" ], []) ] [ "a.md" ]
    (none, "a", [ "a.md" ]) "https://example.com" [ "https:", "example.com" ] rfl rfl⟩

/-- C5: every key of the built index is the normalized source path of
some chapter of the book, and the key set is exactly the one seeded from
chapter paths before any link was processed. -/
theorem C5_keys_are_chapters (b : Book) (idx : Index) (h : buildIndex b = .ok idx) :
    (∃ idx0, seedIndex (listChapters b) = .ok idx0 ∧ alKeys idx = alKeys idx0) ∧
    ∀ k ∈ alKeys idx, ∃ c ∈ listChapters b, ∃ sp, c.source_path = some sp ∧
      normalizePath sp = .ok k := by
  obtain ⟨idx0, hseed, hpop⟩ := buildIndex_parts b idx h
  have hkeys : alKeys idx = alKeys idx0 :=
    foldE_keys populateChapter_keys (listChapters b) idx0 idx hpop
  refine ⟨⟨idx0, hseed, hkeys⟩, ?_⟩
  intro k hk
  rw [hkeys] at hk
  rcases seedFold_keys (listChapters b) [] idx0 hseed k hk with h1 | h2
  · exact absurd h1 (by simp [alKeys])
  · exact h2

/-- Witness for C5 on a concrete two-chapter book. -/
theorem C5_witness :
    buildIndex bookNoLinks = .ok [ ([ "a.md" ], []) ] ∧
    ((∃ idx0, seedIndex (listChapters bookNoLinks) = .ok idx0 ∧
        alKeys [ ([ "a.md" ], []) ] = alKeys idx0) ∧
      ∀ k ∈ alKeys [ ([ "a.md" ], []) ], ∃ c ∈ listChapters bookNoLinks,
        ∃ sp, c.source_path = some sp ∧ normalizePath sp = .ok k) :=
  ⟨rfl, C5_keys_are_chapters bookNoLinks [ ([ "a.md" ], []) ] rfl⟩

/-- C6: if any chapter's source path, or any link destination resolved
against its chapter's directory, normalizes above the document root, the
whole transform returns an error and no output book is produced. -/
theorem C6_escape_aborts (b : Book)
    (h : (∃ c ∈ listChapters b, ∃ sp, c.source_path = some sp ∧
            normalizePath sp = .error .escapesRoot) ∨
         (∃ c ∈ listChapters b, ∃ sp p dest, c.source_path = some sp ∧
            normalizePath sp = .ok p ∧ dest ∈ extractLinks c.content ∧
            normalizePath (parentDir p ++ pathFromString dest) = .error .escapesRoot)) :
    process_book b = .error .escapesRoot := by
  cases hpb : process_book b with
  | error e => rw [normError_eq e]
  | ok b' =>
    exfalso
    obtain ⟨idx, hbi, _⟩ := process_book_parts b b' hpb
    obtain ⟨idx0, hseed, hpop⟩ := buildIndex_parts b idx hbi
    rcases h with ⟨c, hc, sp, hsp, hbad⟩ | ⟨c, hc, sp, p, dest, hsp, hn, hdest, hbad⟩
    · obtain ⟨p, hp⟩ := seedFold_ok_norm (listChapters b) [] idx0 hseed c hc sp hsp
      rw [hp] at hbad
      cases hbad
    · obtain ⟨d, hd⟩ := popFold_ok_norm (listChapters b) idx0 idx hpop c hc sp p hsp hn
        dest hdest
      rw [hd] at hbad
      cases hbad

/-- Witness for C6: a root chapter linking to `../x.md` aborts the
transform. -/
theorem C6_witness : process_book bookEsc = .error .escapesRoot :=
  C6_escape_aborts bookEsc
    (Or.inr ⟨ChInfo.mk "a" "[x](../x.md)" none (some [ "a.md" ]),
      by decide, [ "a.md" ], [ "a.md" ], "../x.md", rfl, rfl, by decide, rfl⟩)

/-- C7: every chapter with zero incoming backlink records — including
every chapter without a source path — keeps its content byte for byte
(positionally paired between input and output book). -/
theorem C7_zero_backlinks_unchanged (b : Book) (idx : Index) (b' : Book)
    (h1 : buildIndex b = .ok idx) (h2 : process_book b = .ok b') :
    List.Forall₂ (fun c c' =>
      (∀ sp p rs, c.source_path = some sp → normalizePath sp = .ok p →
        alGet p idx = some rs → rs = []) →
      c'.content = c.content)
      (listChapters b) (listChapters b') := by
  obtain ⟨idx2, hbi, hb'⟩ := process_book_parts b b' h2
  rw [h1] at hbi
  cases hbi
  subst hb'
  rw [listChapters_forEach]
  rw [List.forall₂_map_right_iff]
  rw [List.forall₂_same]
  intro c hc hz
  rw [spliceChapter_id idx c hz]

/-- Witness for C7 on a concrete link-free book. -/
theorem C7_witness :
    buildIndex bookNoLinks = .ok [ ([ "a.md" ], []) ] ∧
    process_book bookNoLinks = .ok bookNoLinks ∧
    List.Forall₂ (fun c c' =>
      (∀ sp p rs, c.source_path = some sp → normalizePath sp = .ok p →
        alGet p [ ([ "a.md" ], []) ] = some rs → rs = []) →
      c'.content = c.content)
      (listChapters bookNoLinks) (listChapters bookNoLinks) :=
  ⟨rfl, rfl, C7_zero_backlinks_unchanged bookNoLinks [ ([ "a.md" ], []) ] bookNoLinks rfl rfl⟩

/-- C8: `process_book` never changes a chapter's name, number or source
path, and only ever appends to its content — the original content is a
prefix of the new content for every chapter. -/
theorem C8_append_only (b b' : Book) (h : process_book b = .ok b') :
    List.Forall₂ (fun c c' =>
      c'.name = c.name ∧ c'.number = c.number ∧ c'.source_path = c.source_path ∧
      ∃ s, c'.content = c.content ++ s)
      (listChapters b) (listChapters b') := by
  obtain ⟨idx, hbi, hb'⟩ := process_book_parts b b' h
  subst hb'
  rw [listChapters_forEach]
  rw [List.forall₂_map_right_iff]
  rw [List.forall₂_same]
  intro c hc
  obtain ⟨h1, h2, h3, h4⟩ := spliceChapter_fields idx c
  exact ⟨h1, h2, h3, h4⟩

/-- Witness for C8 on the repository test book. -/
theorem C8_witness :
    process_book testBook = .ok testOut ∧
    List.Forall₂ (fun c c' =>
      c'.name = c.name ∧ c'.number = c.number ∧ c'.source_path = c.source_path ∧
      ∃ s, c'.content = c.content ++ s)
      (listChapters testBook) (listChapters testOut) :=
  ⟨rfl, C8_append_only testBook testOut rfl⟩

/-- C1: for every chapter whose deduplicated backlink list is non-empty,
the output content is exactly the old content followed by a double blank
line, the thematic break, and the block-quoted "Backlinks" heading and
list, one inline link per record, whose text is the source chapter's name
and whose destination is the relative path from the target chapter's
directory to the source's path (see `backlinksHeader` and
`backlinkItemStr`). -/
theorem C1_backlinks_fragment (b : Book) (idx : Index) (b' : Book)
    (h1 : buildIndex b = .ok idx) (h2 : process_book b = .ok b') :
    List.Forall₂ (fun c c' =>
      ∀ sp p rs, c.source_path = some sp → normalizePath sp = .ok p →
        alGet p idx = some rs → sortedBacklinks rs ≠ [] →
        c'.content = c.content ++ "\n\n" ++ backlinksHeader ++
          strConcat ((sortedBacklinks rs).map (backlinkItemStr (parentDir p))))
      (listChapters b) (listChapters b') := by
  obtain ⟨idx2, hbi, hb'⟩ := process_book_parts b b' h2
  rw [h1] at hbi
  cases hbi
  subst hb'
  rw [listChapters_forEach, List.forall₂_map_right_iff, List.forall₂_same]
  intro c hc sp p rs hsp hn hg hne
  have hrs : rs ≠ [] := by
    intro hh
    apply hne
    rw [hh]
    rfl
  rw [spliceChapter_content idx c sp p rs hsp hn hg hrs]

/-- Witness for C1 on the repository test book. -/
theorem C1_witness :
    buildIndex testBook = .ok testIdx ∧
    process_book testBook = .ok testOut ∧
    List.Forall₂ (fun c c' =>
      ∀ sp p rs, c.source_path = some sp → normalizePath sp = .ok p →
        alGet p testIdx = some rs → sortedBacklinks rs ≠ [] →
        c'.content = c.content ++ "\n\n" ++ backlinksHeader ++
          strConcat ((sortedBacklinks rs).map (backlinkItemStr (parentDir p))))
      (listChapters testBook) (listChapters testOut) :=
  ⟨rfl, rfl, C1_backlinks_fragment testBook testIdx testOut rfl rfl⟩

/-- C2: the rendered record list is sorted by the tuple (ordering key,
source name, source path): the comparator sorts a strict numeric prefix
before its extensions ([1] before [1,1]) and unnumbered records before
every numbered one, and the whole transform is a function of the book, so
the order is identical on every run. -/
theorem C2_deterministic_order :
    (∀ rs : List Record, List.Pairwise (fun a b => recLe a b = true) (sortedBacklinks rs)) ∧
    (∀ (n e : List Nat) (nm nm' : String) (p p' : PathSegs), e ≠ [] →
      recLe (some n, nm, p) (some (n ++ e), nm', p') = true ∧
      recLe (some (n ++ e), nm', p') (some n, nm, p) = false) ∧
    (∀ (nm nm' : String) (p p' : PathSegs) (nb : List Nat),
      recLe (none, nm, p) (some nb, nm', p') = true ∧
      recLe (some nb, nm', p') (none, nm, p) = false) ∧
    (∀ b1 b2 : Book, b1 = b2 → process_book b1 = process_book b2) := by
  refine ⟨pairwise_sortedBacklinks, ?_, ?_, ?_⟩
  · intro n e nm nm' p p' he
    have hlt : cmpList cmpNat n (n ++ e) = .lt := cmpList_self_append lawCmpNat n e he
    have h1 : cmpRecord (some n, nm, p) (some (n ++ e), nm', p') = .lt := by
      simp [cmpRecord, cmpProd, cmpOpt, hlt, Ordering.then]
    have h2 : cmpRecord (some (n ++ e), nm', p') (some n, nm, p) = .gt := by
      rw [cmpRecord_gt_iff]
      exact h1
    constructor
    · rw [recLe_iff]
      simp [h1]
    · unfold recLe
      rw [h2]
  · intro nm nm' p p' nb
    have h1 : cmpRecord (none, nm, p) (some nb, nm', p') = .lt := by
      simp [cmpRecord, cmpProd, cmpOpt, Ordering.then]
    have h2 : cmpRecord (some nb, nm', p') (none, nm, p) = .gt := by
      rw [cmpRecord_gt_iff]
      exact h1
    constructor
    · rw [recLe_iff]
      simp [h1]
    · unfold recLe
      rw [h2]
  · intro b1 b2 h
    rw [h]

/-- Witness for C2 at concrete records. -/
theorem C2_witness :
    List.Pairwise (fun a b => recLe a b = true)
      (sortedBacklinks [ (some [2], "b", []), (none, "a", []) ]) ∧
    recLe (some [1], "x", []) (some [1, 1], "y", []) = true ∧
    recLe (some [1, 1], "y", []) (some [1], "x", []) = false ∧
    recLe (none, "x", []) (some [5], "y", []) = true :=
  ⟨C2_deterministic_order.1 [ (some [2], "b", []), (none, "a", []) ],
   (C2_deterministic_order.2.1 [1] [1] "x" "y" [] [] (by decide)).1,
   (C2_deterministic_order.2.1 [1] [1] "x" "y" [] [] (by decide)).2,
   (C2_deterministic_order.2.2.1 "x" "y" [] [] [5]).1⟩

/-- Counterexample to C4 as stated: in `bookC4` two chapters share the
name "A" and the source path `x.md` but have different numbers; both link
to `t.md`, and the ordered, deduplicated list for `t.md` keeps both
records even though their source name and source path match — so
"collapsed iff name and path match" is false, and the list holds two
records for that name and path rather than exactly one. -/
theorem C4_counterexample :
    (match buildIndex bookC4 with
      | .ok idx => sortedBacklinks ((alGet [ "t.md" ] idx).getD [])
      | .error _ => []) =
      [ (some [1], "A", [ "x.md" ]), (some [2], "A", [ "x.md" ]) ] ∧
    (match buildIndex bookC4 with
      | .ok idx => sortedBacklinks ((alGet [ "t.md" ] idx).getD [])
      | .error _ => []).countP
        (fun r : Record => decide (r.2.1 = "A" ∧ r.2.2 = [ "x.md" ])) = 2 :=
  ⟨rfl, rfl⟩

/-- C4 (amended): the ordered, deduplicated list is duplicate-free and
keeps exactly the records of the raw list; two records are collapsed into
one iff their ordering key, source name, and source path all match — in
particular a single chapter linking to the same target any number of
times yields exactly one record. -/
theorem C4_dedup_amended :
    (∀ rs : List Record, (sortedBacklinks rs).Nodup) ∧
    (∀ (rs : List Record) (r : Record), r ∈ sortedBacklinks rs ↔ r ∈ rs) ∧
    (∀ (rs : List Record) (r : Record), r ∈ rs →
      (sortedBacklinks rs).countP (fun x => decide (x = r)) = 1) :=
  ⟨nodup_sortedBacklinks, fun rs r => mem_sortedBacklinks r rs,
   fun rs r h => count_sortedBacklinks r rs h⟩

/-- Witness for C4 (amended): a chapter contributing the same record
twice ends up with exactly one copy. -/
theorem C4_witness :
    ((none, "a", [ "s.md" ]) : Record) ∈
      ([ (none, "a", [ "s.md" ]), (none, "a", [ "s.md" ]) ] : List Record) ∧
    (sortedBacklinks [ (none, "a", [ "s.md" ]), (none, "a", [ "s.md" ]) ]).countP
      (fun x => decide (x = ((none, "a", [ "s.md" ]) : Record))) = 1 :=
  ⟨by decide,
   C4_dedup_amended.2.2 [ (none, "a", [ "s.md" ]), (none, "a", [ "s.md" ]) ]
     (none, "a", [ "s.md" ]) (by decide)⟩

/-- C10: a chapter whose content holds a link resolving to the chapter's
own normalized source path is not excluded: it receives a backlink record
for itself in its own rendered list, and its spliced content contains a
link whose text is its own name and whose destination points back to
itself. -/
theorem C10_self_link (b : Book) (idx : Index) (c : ChInfo) (sp p : PathSegs) (dest : String)
    (h : buildIndex b = .ok idx) (hc : c ∈ listChapters b) (hsp : c.source_path = some sp)
    (hn : normalizePath sp = .ok p) (hdest : dest ∈ extractLinks c.content)
    (hres : normalizePath (parentDir p ++ pathFromString dest) = .ok p) :
    (c.number, c.name, p) ∈ sortedBacklinks ((alGet p idx).getD []) ∧
    ∃ s1 s2, (spliceChapter idx c).content =
      c.content ++ s1 ++
        ("\n > * [" ++ c.name ++ "](" ++ pathToString (diffPaths p (parentDir p)) ++ ")") ++
        s2 := by
  obtain ⟨idx0, hseed, hpop⟩ := buildIndex_parts b idx h
  have hsome0 : (alGet p idx0).isSome :=
    seedFold_mem (listChapters b) [] idx0 hseed c hc sp p hsp hn
  have hmem : (c.number, c.name, p) ∈ (alGet p idx).getD [] :=
    popFold_mem (listChapters b) idx0 idx hpop c hc sp p dest p hsp hn hdest hres hsome0
  cases hg : alGet p idx with
  | none =>
    rw [hg] at hmem
    cases hmem
  | some v =>
    rw [hg] at hmem
    simp only [Option.getD_some] at hmem
    have hmem' : (c.number, c.name, p) ∈ sortedBacklinks v :=
      (mem_sortedBacklinks _ v).mpr hmem
    constructor
    · simpa using hmem'
    · have hvne : v ≠ [] := by
        intro hh
        subst hh
        cases hmem
      rw [spliceChapter_content idx c sp p v hsp hn hg hvne]
      obtain ⟨l1, l2, hsplit⟩ := List.append_of_mem hmem'
      refine ⟨"\n\n" ++ backlinksHeader ++ strConcat (l1.map (backlinkItemStr (parentDir p))),
              strConcat (l2.map (backlinkItemStr (parentDir p))), ?_⟩
      rw [hsplit]
      rw [List.map_append, strConcat_append, List.map_cons]
      rw [show strConcat (backlinkItemStr (parentDir p) (c.number, c.name, p) ::
        l2.map (backlinkItemStr (parentDir p))) =
        backlinkItemStr (parentDir p) (c.number, c.name, p) ++
          strConcat (l2.map (backlinkItemStr (parentDir p))) from rfl]
      rw [backlinkItemStr]
      simp [← String.append_assoc]

/-- Witness for C10 on a one-chapter book linking to itself. -/
theorem C10_witness :
    buildIndex bookSelf = .ok selfIdx ∧
    ((none, "s", [ "s.md" ]) : Record) ∈
      sortedBacklinks ((alGet [ "s.md" ] selfIdx).getD []) ∧
    ∃ s1 s2, (spliceChapter selfIdx (ChInfo.mk "s" "[me](s.md)" none (some [ "s.md" ]))).content =
      "[me](s.md)" ++ s1 ++
        ("\n > * [" ++ "s" ++ "](" ++
          pathToString (diffPaths [ "s.md" ] (parentDir [ "s.md" ])) ++ ")") ++ s2 :=
  ⟨rfl,
   (C10_self_link bookSelf selfIdx (ChInfo.mk "s" "[me](s.md)" none (some [ "s.md" ]))
      [ "s.md" ] [ "s.md" ] "s.md" rfl (by decide) rfl rfl (by decide) rfl).1,
   (C10_self_link bookSelf selfIdx (ChInfo.mk "s" "[me](s.md)" none (some [ "s.md" ]))
      [ "s.md" ] [ "s.md" ] "s.md" rfl (by decide) rfl rfl (by decide) rfl).2⟩
